import Mathlib

/-!
Verification of the pip-index maintenance scripts (`update_pip_index.py`,
`regenerate_pip_index.py`) against their natural-language specification.

The Python code is shallowly embedded as executable Lean definitions:

* strings are `String`/`List Char` (Python compares strings by Unicode code
  point, which coincides with the lexicographic order on `List Char` with
  `Char` ordered by code point);
* the regex `finditer` loop of `load_existing_versions` is embedded as an
  explicit backtracking matcher specialised to the one pattern appearing in
  the source (see `matchAt` below for the faithfulness argument);
* the filesystem touched by `update_index` (the `simple/` directory) is an
  explicit state `IndexState`;
* Python exceptions (the `IndexError` that `split("-", 1)[1]` can raise) are
  `Option`, with `none` for a raised exception.
-/

namespace PipIndex

/-- One version record, Python's tuple
`(version, commit_hash, github_user, github_repo)` used throughout
`update_pip_index.py`. -/
structure VRec where
  version : String
  commit : String
  user : String
  repo : String
deriving DecidableEq

/-! ### Character-list primitives

These are the building blocks of the embedded regex matcher and of the
Python string operations (`str.replace`, `str.split`, `str.endswith`). -/

/-- Literal matching: `stripLit? p l` returns `some r` with `l = p ++ r` when `p` is a prefix
of `l`, and `none` otherwise (matching a literal part of the regex). -/
def stripLit? : List Char → List Char → Option (List Char)
  | [], l => some l
  | _ :: _, [] => none
  | p :: ps, c :: cs => if p = c then stripLit? ps cs else none

/-- Maximal munch: `spanNe bad l` splits `l` into its maximal leading run of characters not
in `bad`, and the rest.  This is the maximal munch of a regex character
class `[^bad]` applied greedily. -/
def spanNe (bad : List Char) : List Char → List Char × List Char
  | [] => ([], [])
  | c :: cs =>
    if c ∈ bad then ([], c :: cs)
    else (c :: (spanNe bad cs).1, (spanNe bad cs).2)

/-- Everything after the first occurrence of `sep`, or `none` when `sep`
does not occur.  This is Python's `s.split(sep, 1)[1]`, with `none` for the
`IndexError` raised when there is no separator. -/
def afterFirst? (sep : Char) : List Char → Option (List Char)
  | [] => none
  | c :: cs => if c = sep then some cs else afterFirst? sep cs

/-! ### The regex of `load_existing_versions`

The source parses a package page with

`href="https://github\.com/([^/]+)/([^/]+)/archive/([^"#]+)\.tar\.gz(?:#egg=[^"]+)?">([^<]+)</a>`

iterated by `re.finditer` (leftmost, non-overlapping matches; greedy
quantifiers with backtracking).  The matcher below is that pattern,
specialised:

* `[^/]+` followed by the literal `/` cannot profit from backtracking (a
  shorter run would put a non-`/` character where the literal `/` must
  match), so it is maximal munch (`spanNe`) followed by the literal;
* `[^"#]+` followed by `\.tar\.gz` genuinely backtracks, because `.` is in
  the class: `g3loop` tries every candidate length from the maximal run
  downwards, exactly as the regex engine does;
* the greedy optional group `(?:#egg=[^"]+)?` is tried first with the
  group present (`[^"]+` maximal, which is again forced), then without;
* `[^<]+` followed by `</a>` is forced maximal munch. -/

def hrefLit : List Char := "href=\"https://github.com/".data
def archiveLit : List Char := "/archive/".data
def tarLit : List Char := ".tar.gz".data
def eggLit : List Char := "#egg=".data
def closeLit : List Char := "\">".data
def endALit : List Char := "</a>".data

/-- The four capture groups of one regex match:
`(github_user, github_repo, commit_hash, link_text)`. -/
structure RawLink where
  user : List Char
  repo : List Char
  commit : List Char
  text : List Char
deriving DecidableEq

/-- The part `">([^<]+)</a>` of the pattern: returns the link text and the
remainder of the input after the match. -/
def tailAttempt (r : List Char) : Option (List Char × List Char) :=
  match stripLit? closeLit r with
  | none => none
  | some r2 =>
    match spanNe ['<'] r2 with
    | (g4, r3) =>
      if g4 = [] then none
      else
        match stripLit? endALit r3 with
        | none => none
        | some r4 => some (g4, r4)

/-- The part `(?:#egg=[^"]+)?">([^<]+)</a>`: the optional fragment group is
greedy, so it is tried present first and absent second. -/
def tryTail (r : List Char) : Option (List Char × List Char) :=
  match stripLit? eggLit r with
  | none => tailAttempt r
  | some r1 =>
    if (spanNe ['"'] r1).1 = [] then tailAttempt r
    else
      match tailAttempt (spanNe ['"'] r1).2 with
      | some x => some x
      | none => tailAttempt r

/-- One backtracking attempt for group 3 with candidate length `j`:
`([^"#]+)\.tar\.gz` followed by the rest of the pattern, where the group is
`r3.take j`. -/
def attempt3 (r3 : List Char) (j : Nat) : Option (List Char × List Char × List Char) :=
  match stripLit? tarLit (r3.drop j) with
  | none => none
  | some r4 =>
    match tryTail r4 with
    | none => none
    | some (g4, rem) => some (r3.take j, g4, rem)

/-- Greedy backtracking for `([^"#]+)`: candidate lengths are tried from the
maximal run length down to 1. -/
def g3loop (r3 : List Char) : Nat → Option (List Char × List Char × List Char)
  | 0 => none
  | k + 1 =>
    match attempt3 r3 (k + 1) with
    | some res => some res
    | none => g3loop r3 k

/-- Attempt the whole pattern at the head of `l`; on success returns the
four capture groups and the remainder of `l` after the match. -/
def matchAt (l : List Char) : Option (RawLink × List Char) :=
  match stripLit? hrefLit l with
  | none => none
  | some r0 =>
    match spanNe ['/'] r0 with
    | (u, r1) =>
      if u = [] then none
      else
        match stripLit? ['/'] r1 with
        | none => none
        | some r2 =>
          match spanNe ['/'] r2 with
          | (rp, r3) =>
            if rp = [] then none
            else
              match stripLit? archiveLit r3 with
              | none => none
              | some r4 =>
                match g3loop r4 (spanNe ['"', '#'] r4).1.length with
                | none => none
                | some (c, g4, rem) => some (⟨u, rp, c, g4⟩, rem)

/-- Model of `re.finditer`: scan left to right, emitting non-overlapping matches and
resuming after each match.  The fuel argument is an upper bound on the
number of scanning steps; every step either consumes one character or a
whole (non-empty) match, so `l.length + 1` is always enough
(`scan_eq_of_lt` below). -/
def scan : Nat → List Char → List RawLink
  | 0, _ => []
  | fuel + 1, l =>
    match matchAt l with
    | some (m, rest) => m :: scan fuel rest
    | none =>
      match l with
      | [] => []
      | _ :: t => scan fuel t

/-- All regex matches in a page, in order. -/
def findAll (l : List Char) : List RawLink := scan (l.length + 1) l

/-! ### Recovering the version from the link text (source lines 107-110)

```
if link_text.endswith('.tar.gz'):
    version = link_text.replace(".tar.gz", "").split("-", 1)[1]
else:
    version = link_text.split("-", 1)[1] if "-" in link_text else link_text
```

`str.replace` replaces every (leftmost, non-overlapping) occurrence, and
`split("-", 1)[1]` raises `IndexError` when the string has no `-`; the
embedding returns `none` for that exception. -/

/-- Python's `link_text.replace(".tar.gz", "")`: remove every leftmost,
non-overlapping occurrence.  Fuel-based so that the kernel can evaluate it;
each step consumes at least one character, so `l.length` fuel is enough. -/
def replaceTarGo : Nat → List Char → List Char
  | 0, l => l
  | _ + 1, [] => []
  | fuel + 1, c :: cs =>
    match stripLit? tarLit (c :: cs) with
    | some rest => replaceTarGo fuel rest
    | none => c :: replaceTarGo fuel cs

def replaceTar (l : List Char) : List Char := replaceTarGo l.length l

/-- Lines 107-110 of `update_pip_index.py`: the version recovered from a
link text, `none` when the `IndexError` is raised. -/
def pyVersionOfLinkText (t : List Char) : Option (List Char) :=
  if tarLit.isSuffixOf t then afterFirst? '-' (replaceTar t)
  else if '-' ∈ t then afterFirst? '-' t
  else some t

/-- Turn one regex match into a version record (line 112's
`versions.append((version, commit_hash, github_user, github_repo))`),
`none` when extracting the version raised. -/
def recordOfRaw (m : RawLink) : Option VRec :=
  match pyVersionOfLinkText m.text with
  | none => none
  | some v => some ⟨String.mk v, String.mk m.commit, String.mk m.user, String.mk m.repo⟩

/-- The `for match in re.finditer(...)` accumulation loop; an exception
raised while processing any match aborts the whole call. -/
def collectRecords : List RawLink → Option (List VRec)
  | [] => some []
  | m :: ms =>
    match recordOfRaw m with
    | none => none
    | some r =>
      match collectRecords ms with
      | none => none
      | some rs => some (r :: rs)

/-- Parsing part of `load_existing_versions`, applied to the contents of an existing
`index.html` page. -/
def parsePage (content : String) : Option (List VRec) :=
  collectRecords (findAll content.data)

/-- The function `load_existing_versions` (source lines 85-114).  The argument is the
contents of the package's `index.html`, or `none` when that file does not
exist; a missing page yields the empty record list, not an error. -/
def load_existing_versions : Option String → Option (List VRec)
  | none => some []
  | some content => parsePage content

/-! ### Rendering (source lines 25-82) -/

/-- The header of a package page: the triple-quoted template of
`create_package_index_html` with the package name substituted for both
`format` placeholders. -/
def pkgHeader (package_name : String) : String :=
  "<!DOCTYPE html>\n<html>\n<head>\n    <title>Links for " ++ package_name ++
  "</title>\n</head>\n<body>\n    <h1>Links for " ++ package_name ++ "</h1>\n"

def pkgFooter : String := "</body>\n</html>\n"

/-- One iteration of the `for version, commit_hash, ... in versions_data`
loop: the anchor line appended for one record. -/
def anchorOf (package_name : String) (r : VRec) : String :=
  let tarball_url :=
    "https://github.com/" ++ r.user ++ "/" ++ r.repo ++ "/archive/" ++ r.commit ++ ".tar.gz"
  let link_url := tarball_url ++ "#egg=" ++ package_name ++ "-" ++ r.version
  let link_text := package_name ++ "-" ++ r.version
  "    <a href=\"" ++ link_url ++ "\">" ++ link_text ++ "</a><br>\n"

/-- The function `create_package_index_html` (source lines 25-54). -/
def create_package_index_html (package_name : String) (versions_data : List VRec) : String :=
  versions_data.foldl (fun acc r => acc ++ anchorOf package_name r) (pkgHeader package_name)
    ++ pkgFooter

def rootHeader : String :=
  "<!DOCTYPE html>\n<html>\n<head>\n    <title>Simple Index</title>\n</head>\n<body>\n    <h1>Simple Index</h1>\n"

def rootFooter : String := "</body>\n</html>\n"

/-- One anchor of the root page. -/
def rootAnchorOf (package : String) : String :=
  "    <a href=\"" ++ package ++ "/\">" ++ package ++ "</a><br>\n"

/-- The string order used by Python's `sorted` and string comparison:
code-point lexicographic, i.e. the lexicographic order on the character
lists. -/
def strLe (a b : String) : Prop := a.data ≤ b.data

instance : DecidableRel strLe := fun a b => inferInstanceAs (Decidable (a.data ≤ b.data))

instance : IsTotal String strLe := ⟨fun a b => le_total a.data b.data⟩

instance : IsTrans String strLe := ⟨fun _ _ _ h h' => le_trans h h'⟩

/-- Python's `sorted(packages)`: a stable ascending sort comparing strings
by code point, i.e. lexicographically on their character lists.
`List.insertionSort` with this relation is also stable and ascending, hence
produces the same list. -/
def sortedPackages (packages : List String) : List String :=
  packages.insertionSort strLe

/-- The function `create_root_index_html` (source lines 57-82). -/
def create_root_index_html (packages : List String) : String :=
  (sortedPackages packages).foldl (fun acc p => acc ++ rootAnchorOf p) rootHeader
    ++ rootFooter

/-! ### The merge step of `update_index` (source lines 135-142) -/

/-- The ordering used by `versions.sort(key=lambda x: x[0])`: compare the
version strings only (Python's Timsort is stable; so is
`List.insertionSort`, which therefore computes the same list). -/
def leVer (a b : VRec) : Prop := a.version.data ≤ b.version.data

instance : DecidableRel leVer := fun a b =>
  inferInstanceAs (Decidable (a.version.data ≤ b.version.data))

instance : IsTotal VRec leVer := ⟨fun a b => le_total a.version.data b.version.data⟩

instance : IsTrans VRec leVer := ⟨fun _ _ _ h h' => le_trans h h'⟩

/-- Lines 137-142 of `update_pip_index.py`:

```
new_version = (version, commit_hash, github_user, github_repo)
versions = [v for v in versions if v[0] != version]
versions.append(new_version)
versions.sort(key=lambda x: x[0])
```
-/
def updateList (versions : List VRec) (new_version : VRec) : List VRec :=
  ((versions.filter (fun v => v.version ≠ new_version.version)) ++ [new_version]).insertionSort leVer

/-! ### Filesystem model (source lines 117-164)

`update_index` touches only the `simple/` directory of the index
repository: it creates the package's subdirectory, rewrites
`simple/{package}/index.html`, and rewrites `simple/index.html`.  The state
below records exactly that directory: the names of its subdirectories (all
entries of `simple/` that are directories; the file `simple/index.html` is
not among them), the contents of each package's `index.html` (`none` when
the package has no page), and the contents of the root `index.html`. -/

structure IndexState where
  subdirs : List String
  pages : String → Option String
  rootPage : Option String

/-- The function `update_root_index` (source lines 152-164): list the current package
subdirectories, excluding `.git`, and rewrite `simple/index.html`. -/
def update_root_index (s : IndexState) : IndexState :=
  { s with rootPage := some (create_root_index_html (s.subdirs.filter (fun n => n ≠ ".git"))) }

/-- The function `update_index` (source lines 117-149).  Returns `none` when
`load_existing_versions` raises (the uncaught `IndexError` of line 108), in
which case nothing is written.  `package_dir.mkdir(parents=True,
exist_ok=True)` adds the package's subdirectory if it is absent. -/
def update_index (s : IndexState) (package_name version commit_hash github_user github_repo : String) :
    Option IndexState :=
  let subdirs' := if package_name ∈ s.subdirs then s.subdirs else s.subdirs ++ [package_name]
  match load_existing_versions (s.pages package_name) with
  | none => none
  | some versions =>
    let versions' := updateList versions ⟨version, commit_hash, github_user, github_repo⟩
    let package_html := create_package_index_html package_name versions'
    some (update_root_index
      { subdirs := subdirs'
        pages := fun q => if q = package_name then some package_html else s.pages q
        rootPage := s.rootPage })

/-! ### Lemmas about the primitives -/

theorem stripLit?_eq_some {p l r : List Char} :
    stripLit? p l = some r ↔ l = p ++ r := by
  induction p generalizing l with
  | nil => simp [stripLit?]
  | cons x xs ih =>
    cases l with
    | nil => simp [stripLit?]
    | cons c cs =>
      by_cases hx : x = c
      · subst hx
        simp [stripLit?, ih]
      · simp [stripLit?, hx, Ne.symm hx]

theorem stripLit?_self_append (p r : List Char) : stripLit? p (p ++ r) = some r :=
  stripLit?_eq_some.mpr rfl

theorem spanNe_append_self (bad l : List Char) :
    (spanNe bad l).1 ++ (spanNe bad l).2 = l := by
  induction l with
  | nil => simp [spanNe]
  | cons c cs ih =>
    by_cases hc : c ∈ bad
    · simp [spanNe, hc]
    · simp [spanNe, hc, ih]

theorem spanNe_eq (bad a b : List Char) (ha : ∀ c ∈ a, c ∉ bad)
    (hb : ∀ c cs, b = c :: cs → c ∈ bad) :
    spanNe bad (a ++ b) = (a, b) := by
  induction a with
  | nil =>
    cases b with
    | nil => simp [spanNe]
    | cons c cs => simp [spanNe, hb c cs rfl]
  | cons x xs ih =>
    have hx : x ∉ bad := ha x (by simp)
    have := ih (fun c hc => ha c (by simp [hc]))
    simp [spanNe, hx, this]

theorem afterFirst?_append (sep : Char) (a b : List Char) (ha : sep ∉ a) :
    afterFirst? sep (a ++ sep :: b) = some b := by
  induction a with
  | nil => simp [afterFirst?]
  | cons x xs ih =>
    have hx : ¬ x = sep := by
      intro h; exact ha (by simp [h])
    simp [afterFirst?, hx, ih (fun h => ha (by simp [h]))]

theorem afterFirst?_eq_none (sep : Char) (l : List Char) :
    afterFirst? sep l = none ↔ sep ∉ l := by
  induction l with
  | nil => simp [afterFirst?]
  | cons c cs ih =>
    by_cases hc : c = sep
    · simp [afterFirst?, hc]
    · simp only [afterFirst?, if_neg hc, ih, List.mem_cons, not_or]
      constructor
      · intro h
        exact ⟨fun he => hc he.symm, h⟩
      · intro h
        exact h.2

/-! ### Length bounds: a successful match consumes at least one character -/

theorem stripLit?_length {p l r : List Char} (h : stripLit? p l = some r) :
    r.length ≤ l.length := by
  have := stripLit?_eq_some.mp h
  subst this
  simp

theorem spanNe_snd_length (bad l : List Char) : (spanNe bad l).2.length ≤ l.length := by
  conv_rhs => rw [← spanNe_append_self bad l]
  simp

theorem tailAttempt_length {r : List Char} {g4 rem : List Char}
    (h : tailAttempt r = some (g4, rem)) : rem.length ≤ r.length := by
  unfold tailAttempt at h
  cases hc : stripLit? closeLit r with
  | none => rw [hc] at h; exact absurd h (by simp)
  | some r2 =>
    rw [hc] at h
    simp only at h
    by_cases hg : (spanNe ['<'] r2).1 = []
    · rw [if_pos hg] at h; exact absurd h (by simp)
    · rw [if_neg hg] at h
      cases he : stripLit? endALit (spanNe ['<'] r2).2 with
      | none => rw [he] at h; exact absurd h (by simp)
      | some r4 =>
        rw [he] at h
        simp only [Option.some.injEq, Prod.mk.injEq] at h
        obtain ⟨-, hrem⟩ := h
        subst hrem
        have h1 : r4.length ≤ r2.length :=
          le_trans (stripLit?_length he) (spanNe_snd_length _ _)
        have h2 : r2.length ≤ r.length := stripLit?_length hc
        omega

theorem tryTail_length {r : List Char} {g4 rem : List Char}
    (h : tryTail r = some (g4, rem)) : rem.length ≤ r.length := by
  unfold tryTail at h
  cases he : stripLit? eggLit r with
  | none => rw [he] at h; exact tailAttempt_length h
  | some r1 =>
    rw [he] at h
    simp only at h
    by_cases hsp : (spanNe ['"'] r1).1 = []
    · rw [if_pos hsp] at h; exact tailAttempt_length h
    · rw [if_neg hsp] at h
      cases ht : tailAttempt (spanNe ['"'] r1).2 with
      | none => rw [ht] at h; exact tailAttempt_length h
      | some x =>
        rw [ht] at h
        cases x with
        | mk a b =>
          simp only [Option.some.injEq, Prod.mk.injEq] at h
          obtain ⟨-, hrem⟩ := h
          subst hrem
          have h1 : b.length ≤ (spanNe ['"'] r1).2.length := tailAttempt_length ht
          have h2 : (spanNe ['"'] r1).2.length ≤ r1.length := spanNe_snd_length _ _
          have h3 : r1.length ≤ r.length := stripLit?_length he
          omega

theorem attempt3_length {r3 : List Char} {j : Nat} {c g4 rem : List Char}
    (h : attempt3 r3 j = some (c, g4, rem)) : rem.length ≤ r3.length := by
  unfold attempt3 at h
  cases hs : stripLit? tarLit (r3.drop j) with
  | none => rw [hs] at h; exact absurd h (by simp)
  | some r4 =>
    rw [hs] at h
    simp only at h
    cases ht : tryTail r4 with
    | none => rw [ht] at h; exact absurd h (by simp)
    | some x =>
      rw [ht] at h
      cases x with
      | mk a b =>
        simp only [Option.some.injEq, Prod.mk.injEq] at h
        obtain ⟨-, -, hrem⟩ := h
        subst hrem
        have h1 : b.length ≤ r4.length := tryTail_length ht
        have h2 : r4.length ≤ (r3.drop j).length := stripLit?_length hs
        have h3 : (r3.drop j).length ≤ r3.length := by simp
        omega

theorem g3loop_length {r3 : List Char} {k : Nat} {c g4 rem : List Char}
    (h : g3loop r3 k = some (c, g4, rem)) : rem.length ≤ r3.length := by
  induction k with
  | zero => exact absurd h (by simp [g3loop])
  | succ n ih =>
    unfold g3loop at h
    cases ha : attempt3 r3 (n + 1) with
    | none => rw [ha] at h; exact ih h
    | some res =>
      rw [ha] at h
      simp only [Option.some.injEq] at h
      subst h
      exact attempt3_length ha

theorem matchAt_length {l : List Char} {m : RawLink} {rest : List Char}
    (h : matchAt l = some (m, rest)) : rest.length < l.length := by
  unfold matchAt at h
  cases h0 : stripLit? hrefLit l with
  | none => rw [h0] at h; exact absurd h (by simp)
  | some r0 =>
    rw [h0] at h
    simp only at h
    by_cases hu : (spanNe ['/'] r0).1 = []
    · rw [if_pos hu] at h; exact absurd h (by simp)
    rw [if_neg hu] at h
    cases h1 : stripLit? ['/'] (spanNe ['/'] r0).2 with
    | none => rw [h1] at h; exact absurd h (by simp)
    | some r2 =>
      rw [h1] at h
      simp only at h
      by_cases hr : (spanNe ['/'] r2).1 = []
      · rw [if_pos hr] at h; exact absurd h (by simp)
      rw [if_neg hr] at h
      cases h2 : stripLit? archiveLit (spanNe ['/'] r2).2 with
      | none => rw [h2] at h; exact absurd h (by simp)
      | some r4 =>
        simp only [h2] at h
        cases h3 : g3loop r4 (spanNe ['"', '#'] r4).1.length with
        | none => simp [h3] at h
        | some res =>
          obtain ⟨c, g4, rem⟩ := res
          simp only [h3, Option.some.injEq, Prod.mk.injEq] at h
          obtain ⟨-, hrest⟩ := h
          subst hrest
          have b1 : rem.length ≤ r4.length := g3loop_length h3
          have b2 : r4.length ≤ (spanNe ['/'] r2).2.length := stripLit?_length h2
          have b3 : (spanNe ['/'] r2).2.length ≤ r2.length := spanNe_snd_length _ _
          have b4 : r2.length ≤ (spanNe ['/'] r0).2.length := stripLit?_length h1
          have b5 : (spanNe ['/'] r0).2.length ≤ r0.length := spanNe_snd_length _ _
          have b6 : l = hrefLit ++ r0 := stripLit?_eq_some.mp h0
          have b7 : l.length = hrefLit.length + r0.length := by rw [b6]; simp
          have b8 : 0 < hrefLit.length := by decide
          omega

/-! ### The scanner: fuel irrelevance, skipping, matching -/

theorem scan_succ (fuel : Nat) (l : List Char) :
    scan (fuel + 1) l =
      match matchAt l with
      | some (m, rest) => m :: scan fuel rest
      | none =>
        match l with
        | [] => []
        | _ :: t => scan fuel t := rfl

theorem scan_eq_of_lt {l : List Char} {f g : Nat}
    (hf : l.length < f) (hg : l.length < g) : scan f l = scan g l := by
  induction f generalizing l g with
  | zero => omega
  | succ f' ih =>
    cases g with
    | zero => omega
    | succ g' =>
      rw [scan_succ, scan_succ]
      cases hm : matchAt l with
      | some x =>
        obtain ⟨m, rest⟩ := x
        have := matchAt_length hm
        simp only
        rw [ih (l := rest) (g := g') (by omega) (by omega)]
      | none =>
        cases l with
        | nil => rfl
        | cons c t =>
          simp only [List.length_cons] at hf hg
          simp only
          rw [ih (l := t) (g := g') (by omega) (by omega)]

theorem findAll_nil : findAll [] = [] := rfl

theorem findAll_match {l : List Char} {m : RawLink} {rest : List Char}
    (h : matchAt l = some (m, rest)) : findAll l = m :: findAll rest := by
  have hlen := matchAt_length h
  unfold findAll
  rw [scan_succ, h]
  show m :: scan l.length rest = m :: scan (rest.length + 1) rest
  rw [scan_eq_of_lt (l := rest) (f := l.length) (g := rest.length + 1) hlen (by omega)]

/-- A match can only start where the literal `href="` begins: any successful
`matchAt` position has the double quote as its sixth character. -/
theorem matchAt_eq_none_of {l : List Char} (h6 : '"' ∉ l.take 6) : matchAt l = none := by
  by_contra h
  have h0 : ∃ r0, stripLit? hrefLit l = some r0 := by
    unfold matchAt at h
    cases hs : stripLit? hrefLit l with
    | none => rw [hs] at h; exact absurd rfl h
    | some r0 => exact ⟨r0, rfl⟩
  obtain ⟨r0, hs⟩ := h0
  have hl : l = hrefLit ++ r0 := stripLit?_eq_some.mp hs
  apply h6
  rw [hl, List.take_append_eq_append_take]
  have e1 : hrefLit.take 6 = "href=\"".data := by decide
  have e2 : (6 : Nat) - hrefLit.length = 0 := by decide
  rw [e1, e2, List.take_zero, List.append_nil]
  decide

theorem mem_take_append_cases (a : Char) (p q : List Char) (n : Nat)
    (hp : 1 ≤ p.length) (h : a ∈ (p ++ q).take n) : a ∈ p ∨ a ∈ q.take (n - 1) := by
  rw [List.take_append_eq_append_take] at h
  rcases List.mem_append.mp h with h | h
  · exact Or.inl (List.take_subset _ _ h)
  · right
    have hq : List.take (n - p.length) q = List.take (n - p.length) (List.take (n - 1) q) := by
      rw [List.take_take]
      congr 1
      omega
    rw [hq] at h
    exact List.take_subset _ _ h

/-- Scanning a region that contains no double quote (and is not followed
within five characters by one) finds nothing and just walks past it. -/
theorem scan_append_quotefree (pre : List Char) :
    ∀ (rest : List Char) (f : Nat), (pre ++ rest).length < f →
      '"' ∉ pre → '"' ∉ rest.take 5 →
      scan f (pre ++ rest) = scan (f - pre.length) rest := by
  induction pre with
  | nil =>
    intro rest f _ _ _
    simp
  | cons c pcs ih =>
    intro rest f hf h1 h2
    cases f with
    | zero => simp at hf
    | succ f' =>
      have hnone : matchAt (c :: pcs ++ rest) = none := by
        apply matchAt_eq_none_of
        intro hq
        rcases mem_take_append_cases '"' (c :: pcs) rest 6 (by simp) hq with hm | hm
        · exact h1 hm
        · exact h2 hm
      rw [scan_succ, hnone]
      simp only [List.cons_append]
      have hrec := ih rest f' (by simp only [List.length_append, List.length_cons] at hf ⊢; omega)
        (fun hm => h1 (List.mem_cons_of_mem c hm)) h2
      rw [hrec]
      congr 1
      simp only [List.length_cons]
      omega

theorem findAll_append_quotefree {pre rest : List Char}
    (h1 : '"' ∉ pre) (h2 : '"' ∉ rest.take 5) :
    findAll (pre ++ rest) = findAll rest := by
  unfold findAll
  rw [scan_append_quotefree pre rest ((pre ++ rest).length + 1) (by omega) h1 h2]
  apply scan_eq_of_lt
  · simp only [List.length_append]
    omega
  · omega

/-! ### Matching one well-formed anchor

`anchorSpine` is the character stream of one rendered anchor starting at
its `href="` (where a match begins), with the capture groups symbolic and
every class-terminating character made explicit. -/

/-- Stream after the commit's `.tar.gz`: fragment `#egg={T}`, then `">`,
the link text `{T}`, and `</a>` followed by the remaining input. -/
def fragTail (T rest : List Char) : List Char :=
  "egg=".data ++ (T ++ ('"' :: ('>' :: (T ++ ('<' :: ("/a>".data ++ rest))))))

/-- Stream at the start of capture group 3 (the commit). -/
def anchorMid (C T rest : List Char) : List Char :=
  C ++ (tarLit ++ ('#' :: fragTail T rest))

/-- Stream at the start of a match inside one rendered anchor. -/
def anchorSpine (U R C T rest : List Char) : List Char :=
  hrefLit ++ (U ++ ('/' :: (R ++ ('/' :: ("archive/".data ++ anchorMid C T rest)))))

theorem spanNe_eq_cons (bad a : List Char) (b0 : Char) (b : List Char)
    (ha : ∀ c ∈ a, c ∉ bad) (hb : b0 ∈ bad) :
    spanNe bad (a ++ b0 :: b) = (a, b0 :: b) :=
  spanNe_eq bad a (b0 :: b) ha (fun c cs h => by cases h; exact hb)

theorem attempt3_none_of {r3 : List Char} {j : Nat}
    (h : stripLit? tarLit (r3.drop j) = none) : attempt3 r3 j = none := by
  simp [attempt3, h]

theorem g3loop_succ (r3 : List Char) (k : Nat) :
    g3loop r3 (k + 1) =
      match attempt3 r3 (k + 1) with
      | some res => some res
      | none => g3loop r3 k := rfl

theorem g3loop_skip (r3 : List Char) (k n : Nat)
    (h : ∀ j, k < j → j ≤ k + n → attempt3 r3 j = none) :
    g3loop r3 (k + n) = g3loop r3 k := by
  induction n with
  | zero => rfl
  | succ n ih =>
    have hstep : attempt3 r3 (k + n + 1) = none := h _ (by omega) (by omega)
    have he : g3loop r3 (k + (n + 1)) = g3loop r3 (k + n) := by
      rw [show k + (n + 1) = (k + n) + 1 by omega, g3loop_succ, hstep]
    rw [he, ih (fun j h1 h2 => h j h1 (by omega))]

theorem drop_append_left (a b : List Char) (i : Nat) :
    (a ++ b).drop (a.length + i) = b.drop i := by
  have h := List.drop_drop i a.length (a ++ b)
  rw [List.drop_left] at h
  exact h.symm

theorem tailAttempt_anchor (T rest : List Char) (hT : T ≠ []) (hT3 : '<' ∉ T) :
    tailAttempt ('"' :: ('>' :: (T ++ ('<' :: ("/a>".data ++ rest))))) = some (T, rest) := by
  have h1 : stripLit? closeLit ('"' :: ('>' :: (T ++ ('<' :: ("/a>".data ++ rest)))))
      = some (T ++ ('<' :: ("/a>".data ++ rest))) := by
    have e : ('"' : Char) :: ('>' :: (T ++ ('<' :: ("/a>".data ++ rest))))
        = closeLit ++ (T ++ ('<' :: ("/a>".data ++ rest))) := by
      rw [show closeLit = '"' :: ['>'] from by decide]
      simp
    rw [e, stripLit?_self_append]
  have h2 : spanNe ['<'] (T ++ ('<' :: ("/a>".data ++ rest))) = (T, '<' :: ("/a>".data ++ rest)) :=
    spanNe_eq_cons _ _ _ _
      (fun c hc => by
        simp only [List.mem_singleton]
        intro he
        exact hT3 (he ▸ hc))
      (by simp)
  have h3 : stripLit? endALit ('<' :: ("/a>".data ++ rest)) = some rest := by
    have e : ('<' : Char) :: ("/a>".data ++ rest) = endALit ++ rest := by
      rw [show endALit = '<' :: "/a>".data from by decide]
      simp
    rw [e, stripLit?_self_append]
  simp only [tailAttempt, h1, h2]
  rw [if_neg hT, h3]

theorem tryTail_anchor (T rest : List Char) (hT : T ≠ []) (hT2 : '"' ∉ T) (hT3 : '<' ∉ T) :
    tryTail ('#' :: fragTail T rest) = some (T, rest) := by
  have h1 : stripLit? eggLit ('#' :: fragTail T rest)
      = some (T ++ ('"' :: ('>' :: (T ++ ('<' :: ("/a>".data ++ rest)))))) := by
    have e : ('#' : Char) :: fragTail T rest
        = eggLit ++ (T ++ ('"' :: ('>' :: (T ++ ('<' :: ("/a>".data ++ rest)))))) := by
      rw [show eggLit = '#' :: "egg=".data from by decide]
      simp [fragTail]
    rw [e, stripLit?_self_append]
  have h2 : spanNe ['"'] (T ++ ('"' :: ('>' :: (T ++ ('<' :: ("/a>".data ++ rest))))))
      = (T, '"' :: ('>' :: (T ++ ('<' :: ("/a>".data ++ rest))))) :=
    spanNe_eq_cons _ _ _ _
      (fun c hc => by
        simp only [List.mem_singleton]
        intro he
        exact hT2 (he ▸ hc))
      (by simp)
  have h3 := tailAttempt_anchor T rest hT hT3
  simp only [tryTail, h1, h2]
  rw [if_neg hT]
  simp only [h3]

theorem g3_result (C T rest : List Char) (hC : C ≠ []) (hC2 : '"' ∉ C) (hC3 : '#' ∉ C)
    (hT : T ≠ []) (hT2 : '"' ∉ T) (hT3 : '<' ∉ T) :
    g3loop (anchorMid C T rest) (C ++ tarLit).length = some (C, T, rest) := by
  have htar : tarLit = '.' :: 't' :: 'a' :: 'r' :: '.' :: 'g' :: 'z' :: [] := by decide
  have hlen : (C ++ tarLit).length = C.length + 7 := by
    rw [List.length_append, show tarLit.length = 7 from by decide]
  have hskipcond : ∀ j, C.length < j → j ≤ C.length + 7 →
      attempt3 (anchorMid C T rest) j = none := by
    intro j hj1 hj2
    obtain ⟨i, hi1, hi2, rfl⟩ : ∃ i, 1 ≤ i ∧ i ≤ 7 ∧ j = C.length + i :=
      ⟨j - C.length, by omega, by omega, by omega⟩
    apply attempt3_none_of
    unfold anchorMid
    rw [drop_append_left]
    rw [htar]
    interval_cases i <;> simp [stripLit?]
  rw [hlen, g3loop_skip _ _ _ hskipcond]
  obtain ⟨c0, C', rfl⟩ : ∃ c0 C', C = c0 :: C' := by
    cases C with
    | nil => exact absurd rfl hC
    | cons a b => exact ⟨a, b, rfl⟩
  rw [show (c0 :: C').length = C'.length + 1 from rfl, g3loop_succ]
  have e1 : (anchorMid (c0 :: C') T rest).drop (C'.length + 1) = tarLit ++ ('#' :: fragTail T rest) := by
    unfold anchorMid
    rw [show C'.length + 1 = (c0 :: C').length from rfl, List.drop_left]
  have e2 : (anchorMid (c0 :: C') T rest).take (C'.length + 1) = c0 :: C' := by
    unfold anchorMid
    rw [show C'.length + 1 = (c0 :: C').length from rfl, List.take_left]
  have e3 := tryTail_anchor T rest hT hT2 hT3
  simp [attempt3, e1, e2, e3, stripLit?_self_append]

theorem matchAt_anchor (U R C T rest : List Char)
    (hU : U ≠ []) (hU2 : '/' ∉ U)
    (hR : R ≠ []) (hR2 : '/' ∉ R)
    (hC : C ≠ []) (hC2 : '"' ∉ C) (hC3 : '#' ∉ C)
    (hT : T ≠ []) (hT2 : '"' ∉ T) (hT3 : '<' ∉ T) :
    matchAt (anchorSpine U R C T rest) = some (⟨U, R, C, T⟩, rest) := by
  have s1 : spanNe ['/'] (U ++ ('/' :: (R ++ ('/' :: ("archive/".data ++ anchorMid C T rest)))))
      = (U, '/' :: (R ++ ('/' :: ("archive/".data ++ anchorMid C T rest)))) :=
    spanNe_eq_cons _ _ _ _
      (fun c hc => by
        simp only [List.mem_singleton]
        intro he
        exact hU2 (he ▸ hc))
      (by simp)
  have s2 : stripLit? ['/'] ('/' :: (R ++ ('/' :: ("archive/".data ++ anchorMid C T rest))))
      = some (R ++ ('/' :: ("archive/".data ++ anchorMid C T rest))) := by
    simp [stripLit?]
  have s3 : spanNe ['/'] (R ++ ('/' :: ("archive/".data ++ anchorMid C T rest)))
      = (R, '/' :: ("archive/".data ++ anchorMid C T rest)) :=
    spanNe_eq_cons _ _ _ _
      (fun c hc => by
        simp only [List.mem_singleton]
        intro he
        exact hR2 (he ▸ hc))
      (by simp)
  have s4 : stripLit? archiveLit ('/' :: ("archive/".data ++ anchorMid C T rest))
      = some (anchorMid C T rest) := by
    have e : ('/' : Char) :: ("archive/".data ++ anchorMid C T rest)
        = archiveLit ++ anchorMid C T rest := by
      rw [show archiveLit = '/' :: "archive/".data from by decide]
      simp
    rw [e, stripLit?_self_append]
  have s5 : spanNe ['"', '#'] (anchorMid C T rest) = (C ++ tarLit, '#' :: fragTail T rest) := by
    unfold anchorMid
    rw [← List.append_assoc]
    exact spanNe_eq_cons _ _ _ _
      (fun c hc => by
        rcases List.mem_append.mp hc with hm | hm
        · simp only [List.mem_cons, List.mem_singleton]
          rintro (he | he | hx)
          · exact hC2 (he ▸ hm)
          · exact hC3 (he ▸ hm)
          · exact absurd hx (List.not_mem_nil c)
        · exact (by decide : ∀ x, x ∈ tarLit → x ∉ (['"', '#'] : List Char)) c hm)
      (by simp)
  have s6 := g3_result C T rest hC hC2 hC3 hT hT2 hT3
  simp only [matchAt, anchorSpine, stripLit?_self_append, s1]
  rw [if_neg hU]
  simp only [s2, s3]
  rw [if_neg hR]
  simp only [s4, s5, s6]

/-! ### Round-trip: parsing a rendered package page -/

/-- Well-formedness of a package name for the round-trip: no `-` (the
documented split ambiguity), and no `"` or `<` (which would break the
rendered HTML's structure). -/
def GoodName (P : String) : Prop := '-' ∉ P.data ∧ '"' ∉ P.data ∧ '<' ∉ P.data

/-- Well-formedness of one record for the round-trip: the version avoids
`"`/`<` and does not end in `.tar.gz`; the commit is non-empty without
`"`/`#`; user and repo are non-empty without `/`. -/
def GoodRec (r : VRec) : Prop :=
  '"' ∉ r.version.data ∧ '<' ∉ r.version.data ∧ tarLit.isSuffixOf r.version.data = false ∧
  r.commit.data ≠ [] ∧ '"' ∉ r.commit.data ∧ '#' ∉ r.commit.data ∧
  r.user.data ≠ [] ∧ '/' ∉ r.user.data ∧
  r.repo.data ≠ [] ∧ '/' ∉ r.repo.data

instance (P : String) : Decidable (GoodName P) := by
  unfold GoodName
  infer_instance

instance (r : VRec) : Decidable (GoodRec r) := by
  unfold GoodRec
  infer_instance

/-- The raw capture groups that the regex recovers from the anchor rendered
for record `r` of package `P`. -/
def rawOf (P : String) (r : VRec) : RawLink :=
  ⟨r.user.data, r.repo.data, r.commit.data, P.data ++ '-' :: r.version.data⟩

/-- The concatenated anchor lines of a page. -/
def bodyData (P : String) (recs : List VRec) : List Char :=
  (recs.map (fun r => (anchorOf P r).data)).flatten

theorem anchor_decomp (P : String) (r : VRec) (tail : List Char) :
    (anchorOf P r).data ++ tail
      = "    <a ".data ++ anchorSpine r.user.data r.repo.data r.commit.data
          (P.data ++ '-' :: r.version.data) ("<br>\n".data ++ tail) := by
  simp [anchorOf, anchorSpine, anchorMid, fragTail, hrefLit, tarLit, List.append_assoc]

theorem findAll_of_no_quote {l : List Char} (h : '"' ∉ l) : findAll l = [] := by
  have hs := @findAll_append_quotefree l [] h (by simp)
  rw [List.append_nil] at hs
  rw [hs, findAll_nil]

theorem spine_take5 (U R C T Z : List Char) :
    (anchorSpine U R C T Z).take 5 = "href=".data := by
  unfold anchorSpine
  rw [List.take_append_eq_append_take,
    show List.take 5 hrefLit = "href=".data from by decide,
    show 5 - hrefLit.length = 0 from by decide]
  simp

theorem body_take5_ok (P : String) (recs : List VRec) :
    '"' ∉ (bodyData P recs ++ pkgFooter.data).take 5 := by
  cases recs with
  | nil =>
    simp only [bodyData, List.map_nil, List.flatten_nil, List.nil_append]
    intro hm
    have := List.take_subset 5 pkgFooter.data hm
    revert this
    decide
  | cons r rs =>
    have hb : bodyData P (r :: rs) ++ pkgFooter.data
        = (anchorOf P r).data ++ (bodyData P rs ++ pkgFooter.data) := by
      simp [bodyData, List.append_assoc]
    rw [hb, anchor_decomp, List.take_append_eq_append_take,
      show List.take 5 ("    <a ".data) = "    <".data from by decide,
      show 5 - ("    <a ".data).length = 0 from by decide]
    simp

/-- No suffix of the link text `{A}-{V}` is `.tar.gz` unless `V` itself
ends in `.tar.gz`: the dash cannot occur inside `.tar.gz`. -/
theorem not_tar_suffix (A V : List Char) (hV : tarLit.isSuffixOf V = false) :
    tarLit.isSuffixOf (A ++ '-' :: V) = false := by
  by_contra hb
  rw [Bool.not_eq_false, List.isSuffixOf_iff_suffix] at hb
  obtain ⟨s, hs⟩ := hb
  have h7 : tarLit.length = 7 := by decide
  have hlen : s.length + 7 = A.length + 1 + V.length := by
    have hc := congrArg List.length hs
    simp only [List.length_append, List.length_cons, h7] at hc
    omega
  have hd1 : List.drop s.length (s ++ tarLit) = tarLit := List.drop_left s tarLit
  rw [hs] at hd1
  by_cases hge : 7 ≤ V.length
  · have hsplit : A ++ '-' :: V = (A ++ ['-']) ++ V := by simp
    rw [hsplit] at hd1
    have he : s.length = (A ++ ['-']).length + (s.length - (A.length + 1)) := by
      simp only [List.length_append, List.length_cons, List.length_nil]
      omega
    rw [he, drop_append_left] at hd1
    have hsuf : tarLit <:+ V := hd1 ▸ List.drop_suffix _ _
    have hb2 : tarLit.isSuffixOf V = true := List.isSuffixOf_iff_suffix.mpr hsuf
    rw [hV] at hb2
    exact absurd hb2 Bool.false_ne_true
  · have hle : s.length ≤ A.length := by omega
    rw [List.drop_append_eq_append_drop,
      show s.length - A.length = 0 from by omega, List.drop_zero] at hd1
    have hdash : '-' ∈ tarLit := by
      rw [← hd1]
      exact List.mem_append.mpr (Or.inr (List.mem_cons_self _ _))
    exact absurd hdash (by decide)

theorem not_mem_text {c : Char} (P : String) (V : List Char)
    (h1 : c ∉ P.data) (h2 : c ∉ V) (h3 : c ≠ '-') : c ∉ P.data ++ '-' :: V := by
  intro hm
  rcases List.mem_append.mp hm with hm | hm
  · exact h1 hm
  · rcases List.mem_cons.mp hm with hm | hm
    · exact h3 hm
    · exact h2 hm

theorem findAll_body (P : String) (hP : GoodName P) :
    ∀ recs : List VRec, (∀ r ∈ recs, GoodRec r) →
      findAll (bodyData P recs ++ pkgFooter.data) = recs.map (rawOf P) := by
  intro recs
  induction recs with
  | nil =>
    intro _
    simp only [bodyData, List.map_nil, List.flatten_nil, List.nil_append]
    apply findAll_of_no_quote
    decide
  | cons r rs ih =>
    intro hg
    obtain ⟨hv1, hv2, hv3, hc1, hc2, hc3, hu1, hu2, hr1, hr2⟩ := hg r (by simp)
    have hb : bodyData P (r :: rs) ++ pkgFooter.data
        = (anchorOf P r).data ++ (bodyData P rs ++ pkgFooter.data) := by
      simp [bodyData, List.append_assoc]
    rw [hb, anchor_decomp]
    rw [findAll_append_quotefree (by decide) (by rw [spine_take5]; decide)]
    have hm := matchAt_anchor r.user.data r.repo.data r.commit.data
      (P.data ++ '-' :: r.version.data)
      ("<br>\n".data ++ (bodyData P rs ++ pkgFooter.data))
      hu1 hu2 hr1 hr2 hc1 hc2 hc3
      (List.append_ne_nil_of_right_ne_nil _ (by simp))
      (not_mem_text P r.version.data hP.2.1 hv1 (by decide))
      (not_mem_text P r.version.data hP.2.2 hv2 (by decide))
    rw [findAll_match hm]
    rw [findAll_append_quotefree (by decide) (body_take5_ok P rs)]
    rw [ih (fun x hx => hg x (by simp [hx]))]
    rfl

theorem pyVersion_text (P : String) (V : List Char) (hdash : '-' ∉ P.data)
    (hsuf : tarLit.isSuffixOf V = false) :
    pyVersionOfLinkText (P.data ++ '-' :: V) = some V := by
  have h1 := not_tar_suffix P.data V hsuf
  have h2 : '-' ∈ P.data ++ '-' :: V :=
    List.mem_append.mpr (Or.inr (List.mem_cons_self _ _))
  simp [pyVersionOfLinkText, h1, h2, afterFirst?_append '-' P.data V hdash]

theorem recordOfRaw_anchor (P : String) (r : VRec) (hP : GoodName P) (hr : GoodRec r) :
    recordOfRaw (rawOf P r) = some r := by
  have hpy := pyVersion_text P r.version.data hP.1 hr.2.2.1
  simp [recordOfRaw, rawOf, hpy]

theorem collectRecords_map (P : String) (hP : GoodName P) :
    ∀ recs : List VRec, (∀ r ∈ recs, GoodRec r) →
      collectRecords (recs.map (rawOf P)) = some recs := by
  intro recs
  induction recs with
  | nil => intro _; rfl
  | cons r rs ih =>
    intro hg
    have h1 := recordOfRaw_anchor P r hP (hg r (by simp))
    have h2 := ih (fun x hx => hg x (by simp [hx]))
    simp [collectRecords, h1, h2]

theorem create_pkg_data (P : String) (recs : List VRec) :
    (create_package_index_html P recs).data
      = (pkgHeader P).data ++ (bodyData P recs ++ pkgFooter.data) := by
  unfold create_package_index_html
  have hf : ∀ (rs : List VRec) (acc : String),
      (rs.foldl (fun a r => a ++ anchorOf P r) acc).data = acc.data ++ bodyData P rs := by
    intro rs
    induction rs with
    | nil => intro acc; simp [bodyData]
    | cons r rs ih =>
      intro acc
      simp [List.foldl_cons, ih, bodyData, List.append_assoc]
  simp [hf, List.append_assoc]

theorem quote_notin_pkgHeader (P : String) (h : '"' ∉ P.data) :
    '"' ∉ (pkgHeader P).data := by
  simp [pkgHeader, h]

theorem findAll_page (P : String) (recs : List VRec) (hP : GoodName P)
    (hrecs : ∀ r ∈ recs, GoodRec r) :
    findAll (create_package_index_html P recs).data = recs.map (rawOf P) := by
  rw [create_pkg_data,
    findAll_append_quotefree (quote_notin_pkgHeader P hP.2.1) (body_take5_ok P recs),
    findAll_body P hP recs hrecs]

/-- Round-trip of the page serialisation: parsing a rendered package page
recovers exactly the rendered record list. -/
theorem parse_render (P : String) (recs : List VRec) (hP : GoodName P)
    (hrecs : ∀ r ∈ recs, GoodRec r) :
    parsePage (create_package_index_html P recs) = some recs := by
  unfold parsePage
  rw [findAll_page P recs hP hrecs, collectRecords_map P hP recs hrecs]

/-! ### Properties of the merge step (source lines 135-142) -/

theorem updateList_sorted (vs : List VRec) (n : VRec) :
    (updateList vs n).Sorted leVer :=
  List.sorted_insertionSort leVer _

theorem updateList_mem_iff (vs : List VRec) (n : VRec) (x : VRec)
    (hx : x.version ≠ n.version) : x ∈ updateList vs n ↔ x ∈ vs := by
  unfold updateList
  rw [(List.perm_insertionSort leVer _).mem_iff]
  constructor
  · intro h
    rcases List.mem_append.mp h with h | h
    · exact (List.mem_filter.mp h).1
    · simp only [List.mem_singleton] at h
      subst h
      exact absurd rfl hx
  · intro h
    exact List.mem_append.mpr (Or.inl (List.mem_filter.mpr ⟨h, by simp [hx]⟩))

theorem updateList_mem_self (vs : List VRec) (n : VRec) : n ∈ updateList vs n := by
  unfold updateList
  rw [(List.perm_insertionSort leVer _).mem_iff]
  exact List.mem_append.mpr (Or.inr (by simp))

theorem updateList_countP (vs : List VRec) (n : VRec) :
    (updateList vs n).countP (fun v => v.version = n.version) = 1 := by
  unfold updateList
  rw [(List.perm_insertionSort leVer _).countP_eq]
  rw [List.countP_append]
  have h0 : (vs.filter (fun v => v.version ≠ n.version)).countP
      (fun v => v.version = n.version) = 0 := by
    rw [List.countP_eq_zero]
    intro a ha
    have := (List.mem_filter.mp ha).2
    simp only [decide_eq_true_eq] at this ⊢
    exact fun he => this he
  rw [h0]
  simp

theorem updateList_filter_new (vs : List VRec) (n : VRec) :
    (updateList vs n).filter (fun v => v.version = n.version) = [n] := by
  have hc := updateList_countP vs n
  rw [List.countP_eq_length_filter] at hc
  obtain ⟨a, ha⟩ := List.length_eq_one.mp hc
  have hmem : n ∈ (updateList vs n).filter (fun v => v.version = n.version) :=
    List.mem_filter.mpr ⟨updateList_mem_self vs n, by simp⟩
  rw [ha] at hmem
  simp only [List.mem_singleton] at hmem
  rw [ha, hmem]

theorem updateList_pairwise (vs : List VRec) (n : VRec)
    (hinv : vs.Pairwise (fun a b => a.version ≠ b.version)) :
    (updateList vs n).Pairwise (fun a b => a.version ≠ b.version) := by
  unfold updateList
  rw [List.Perm.pairwise_iff (fun h => h.symm) (List.perm_insertionSort leVer _)]
  rw [List.pairwise_append]
  refine ⟨hinv.filter _, by simp, ?_⟩
  intro a ha b hb
  have := (List.mem_filter.mp ha).2
  simp only [List.mem_singleton] at hb
  simp only [decide_eq_true_eq] at this
  rw [hb]
  exact this

theorem updateList_idem_perm (vs : List VRec) (n : VRec) :
    (updateList (updateList vs n) n).Perm (updateList vs n) := by
  have hfe : (updateList vs n).filter (fun v => v.version ≠ n.version)
      |>.Perm (vs.filter (fun v => v.version ≠ n.version)) := by
    have h1 : ((vs.filter (fun v => v.version ≠ n.version) ++ [n]).filter
        (fun v => v.version ≠ n.version)) = vs.filter (fun v => v.version ≠ n.version) := by
      rw [List.filter_append, List.filter_filter]
      simp
    have h2 := (List.perm_insertionSort leVer
      (vs.filter (fun v => v.version ≠ n.version) ++ [n])).filter
      (fun v => v.version ≠ n.version)
    rw [h1] at h2
    exact h2
  have p1 : (updateList (updateList vs n) n).Perm
      ((updateList vs n).filter (fun v => v.version ≠ n.version) ++ [n]) :=
    List.perm_insertionSort leVer _
  have p2 := hfe.append_right [n]
  have p3 : (List.insertionSort leVer
      (vs.filter (fun v => v.version ≠ n.version) ++ [n])).Perm
      (vs.filter (fun v => v.version ≠ n.version) ++ [n]) :=
    List.perm_insertionSort leVer _
  exact p1.trans (p2.trans p3.symm)

/-- A list that is sorted by version and has pairwise-distinct versions is
sorted under the strict version order. -/
theorem sorted_strict_of_distinct {l : List VRec} (hs : l.Sorted leVer)
    (hd : l.Pairwise (fun a b => a.version ≠ b.version)) :
    l.Pairwise (fun a b => a.version.data < b.version.data) := by
  have hb : l.Pairwise (fun a b => leVer a b ∧ a.version ≠ b.version) :=
    List.Pairwise.and hs hd
  refine hb.imp ?_
  intro a b h
  refine lt_of_le_of_ne h.1 ?_
  intro he
  apply h.2
  have h3 := congrArg String.mk he
  exact h3

/-- On record lists with pairwise-distinct versions, the merge is
literally idempotent: the two sorted permutations coincide. -/
theorem updateList_idem_eq (vs : List VRec) (n : VRec)
    (hinv : vs.Pairwise (fun a b => a.version ≠ b.version)) :
    updateList (updateList vs n) n = updateList vs n := by
  have hperm := updateList_idem_perm vs n
  have hd2 : (updateList vs n).Pairwise (fun a b => a.version ≠ b.version) :=
    updateList_pairwise vs n hinv
  have hd1 : (updateList (updateList vs n) n).Pairwise (fun a b => a.version ≠ b.version) :=
    updateList_pairwise _ n hd2
  have hlt1 := sorted_strict_of_distinct (updateList_sorted (updateList vs n) n) hd1
  have hlt2 := sorted_strict_of_distinct (updateList_sorted vs n) hd2
  haveI : IsAntisymm VRec (fun a b => a.version.data < b.version.data) :=
    ⟨fun _ _ h1 h2 => (lt_asymm h1 h2).elim⟩
  exact List.eq_of_perm_of_sorted hperm hlt1 hlt2

/-! ### The specification's version-recovery rule (section 4.2)

Following the spec's words: "The version is recovered from the link text by
stripping a trailing `.tar.gz` suffix if present, then splitting off
everything before the first `-` (package-name prefix); if no `-` is
present, the whole text is treated as the version."  This definition is a
transcription of those words, to be compared with the code's
`pyVersionOfLinkText`. -/

def specVersionOfLinkText (t : List Char) : List Char :=
  let t' := if tarLit.isSuffixOf t then t.take (t.length - 7) else t
  match afterFirst? '-' t' with
  | some v => v
  | none => t'

theorem pyVersion_eq_spec_of_no_tar (t : List Char)
    (h : tarLit.isSuffixOf t = false) :
    pyVersionOfLinkText t = some (specVersionOfLinkText t) := by
  unfold pyVersionOfLinkText specVersionOfLinkText
  rw [h]
  simp only [Bool.false_eq_true, if_false]
  cases haf : afterFirst? '-' t with
  | none =>
    have hnd : '-' ∉ t := (afterFirst?_eq_none '-' t).mp haf
    simp [hnd]
  | some v =>
    have hd : '-' ∈ t := by
      by_contra hnd
      rw [(afterFirst?_eq_none '-' t).mpr hnd] at haf
      exact Option.noConfusion haf
    simp [hd, haf]

/-! ### External-process invocations of `regenerate_pip_index.py`

Each `subprocess.run(...)` in the source is recorded as the argument vector
it passes, its `timeout=` keyword (seconds; `none` when the keyword is
absent, in which case the call can block indefinitely) and whether
`check=True` is passed.  Note that `regenerate_pip_index.py` defines
`get_git_commit`, `read_package_info`, `find_repos_with_pip_index`,
`regenerate_index` and `main` twice (lines 75-239 and again lines
242-400); Python executes definitions in order, so for each name the
second definition is the one that runs. -/

structure SubprocessCall where
  argv : List String
  timeoutSeconds : Option Nat
  check : Bool
deriving DecidableEq

/-- Lines 40-47 (`get_github_info`): the remote-URL lookup
`git remote get-url origin`, with `timeout=5`. -/
def get_github_info_call : SubprocessCall :=
  { argv := ["git", "remote", "get-url", "origin"], timeoutSeconds := some 5, check := false }

/-- Lines 77-84 and 244-251 (both copies of `get_git_commit` are
identical): the commit lookup `git rev-parse HEAD`, with `check=True` and
no `timeout=`. -/
def get_git_commit_call : SubprocessCall :=
  { argv := ["git", "rev-parse", "HEAD"], timeoutSeconds := none, check := true }

/-- Lines 188-206: the per-repository Index Writer invocation of the first
definition of `regenerate_index` — shadowed, never executed — which passes
`timeout=10` and handles `TimeoutExpired`. -/
def update_call_shadowed (py script pkg ver commit idx user repo : String) : SubprocessCall :=
  { argv := [py, script, pkg, ver, commit, "--index-repo", idx,
      "--github-user", user, "--github-repo", repo]
    timeoutSeconds := some 10
    check := false }

/-- Lines 355-373: the per-repository Index Writer invocation of the second
definition of `regenerate_index` — the one Python actually runs — which
passes `check=True` and no `timeout=`. -/
def update_call (py script pkg ver commit idx user repo : String) : SubprocessCall :=
  { argv := [py, script, pkg, ver, commit, "--index-repo", idx,
      "--github-user", user, "--github-repo", repo]
    timeoutSeconds := none
    check := true }

/-! ### Helper facts about `update_index` on the filesystem state -/

theorem create_root_data (packages : List String) :
    (create_root_index_html packages).data
      = rootHeader.data ++
          (((sortedPackages packages).map (fun p => (rootAnchorOf p).data)).flatten
            ++ rootFooter.data) := by
  unfold create_root_index_html
  have hf : ∀ (ps : List String) (acc : String),
      (ps.foldl (fun a p => a ++ rootAnchorOf p) acc).data
        = acc.data ++ (ps.map (fun p => (rootAnchorOf p).data)).flatten := by
    intro ps
    induction ps with
    | nil => intro acc; simp
    | cons p ps ih =>
      intro acc
      simp [List.foldl_cons, ih, List.append_assoc]
  simp [hf, List.append_assoc]

theorem update_index_eq (s : IndexState) (pn v c u rp : String) (vs : List VRec)
    (h : load_existing_versions (s.pages pn) = some vs) :
    update_index s pn v c u rp = some (update_root_index
      { subdirs := if pn ∈ s.subdirs then s.subdirs else s.subdirs ++ [pn]
        pages := fun q =>
          if q = pn then some (create_package_index_html pn (updateList vs ⟨v, c, u, rp⟩))
          else s.pages q
        rootPage := s.rootPage }) := by
  unfold update_index
  rw [h]

/-! ### Concrete states used by the witnesses -/

/-- An index repository whose `simple/` directory is empty. -/
def exampleState : IndexState := ⟨[], fun _ => none, none⟩

/-- The state after registering `eprint 0.0.1` in the empty repository. -/
def exampleUpdated : IndexState :=
  update_root_index
    { subdirs := ["eprint"]
      pages := fun q =>
        if q = "eprint" then
          some (create_package_index_html "eprint"
            (updateList [] ⟨"0.0.1", "abc", "jakeogh", "eprint"⟩))
        else none
      rootPage := none }

/-- The state after registering `eprint 0.0.1` a second time: the page is
re-parsed (recovering the one record) and re-merged with the same tuple. -/
def exampleTwice : IndexState :=
  update_root_index
    { subdirs := ["eprint"]
      pages := fun q =>
        if q = "eprint" then
          some (create_package_index_html "eprint"
            (updateList [⟨"0.0.1", "abc", "jakeogh", "eprint"⟩]
              ⟨"0.0.1", "abc", "jakeogh", "eprint"⟩))
        else exampleUpdated.pages q
      rootPage := exampleUpdated.rootPage }

/-! ### The claims -/

/-- Claim C1 (amended): for every package name without `-`, `"` or `<` and
every record list whose versions avoid `"`, `<` and a trailing `.tar.gz`,
whose commits are non-empty without `"`/`#`, and whose forge user/repo are
non-empty without `/`, rendering the package page and parsing it back
yields exactly the same record list (hence the same set, in the rendered
order).  As frozen, the claim quantified over *every* package name, which
fails for names containing `-` (see the counterexample). -/
theorem claim_C1_roundtrip (P : String) (recs : List VRec) (hP : GoodName P)
    (hrecs : ∀ r ∈ recs, GoodRec r) :
    load_existing_versions (some (create_package_index_html P recs)) = some recs :=
  parse_render P recs hP hrecs

set_option maxRecDepth 40000 in
/-- Claim C1 counterexample: for the package name `a-b` (whose version
string `1` is free of any `-` ambiguity) the page renders the link text
`a-b-1`, and parsing recovers the version `b-1`, not `1`: the parsed set
differs from the rendered set. -/
theorem claim_C1_counterexample :
    load_existing_versions (some (create_package_index_html "a-b" [⟨"1", "c", "u", "r"⟩]))
      = some [⟨"b-1", "c", "u", "r"⟩]
    ∧ (⟨"1", "c", "u", "r"⟩ : VRec) ∉ [(⟨"b-1", "c", "u", "r"⟩ : VRec)] := by
  constructor
  · decide
  · decide

set_option maxRecDepth 40000 in
/-- Witness for C1: the round-trip theorem applied to package `eprint`
with one well-formed record. -/
theorem claim_C1_witness :
    GoodName "eprint"
    ∧ GoodRec ⟨"0.0.1", "abc123", "jakeogh", "eprint"⟩
    ∧ load_existing_versions
        (some (create_package_index_html "eprint" [⟨"0.0.1", "abc123", "jakeogh", "eprint"⟩]))
        = some [⟨"0.0.1", "abc123", "jakeogh", "eprint"⟩] :=
  ⟨by decide, by decide,
    claim_C1_roundtrip "eprint" [⟨"0.0.1", "abc123", "jakeogh", "eprint"⟩]
      (by decide) (by decide)⟩

/-- Claim C2 (amended): for every recognized anchor whose link text does
not end in `.tar.gz`, the version the code recovers equals the
specification's rule (take everything after the first `-`, or the whole
text when there is no `-`) and the parse succeeds.  As frozen, the claim
also covered link texts ending in `.tar.gz` and asserted the parse never
fails; there the code removes *every* occurrence of `.tar.gz` (not only
the trailing one) and raises `IndexError` when no `-` remains (see the
counterexample). -/
theorem claim_C2_version_rule (t : List Char) (h : tarLit.isSuffixOf t = false) :
    pyVersionOfLinkText t = some (specVersionOfLinkText t) :=
  pyVersion_eq_spec_of_no_tar t h

/-- Claim C2 counterexample: on the link text `eprint.tar.gz` (no `-`) the
code raises `IndexError` (modelled as `none`), while the specification's
rule yields the version `eprint` — so the recovered version does not equal
the spec's rule and the parse does fail. -/
theorem claim_C2_counterexample :
    pyVersionOfLinkText "eprint.tar.gz".data = none
    ∧ specVersionOfLinkText "eprint.tar.gz".data = "eprint".data := by
  constructor
  · decide
  · decide

/-- Witness for C2: the version-recovery agreement applied to the link
text `eprint-0.0.1`. -/
theorem claim_C2_witness :
    tarLit.isSuffixOf "eprint-0.0.1".data = false
    ∧ pyVersionOfLinkText "eprint-0.0.1".data
        = some (specVersionOfLinkText "eprint-0.0.1".data) :=
  ⟨by decide, claim_C2_version_rule "eprint-0.0.1".data (by decide)⟩

/-- Claim C3: for every prior record list with pairwise-distinct versions
and every incoming record, the merged list contains exactly one record
with the incoming version — the new record — and its versions are still
pairwise distinct. -/
theorem claim_C3_unique_version (vs : List VRec) (n : VRec)
    (hinv : vs.Pairwise (fun a b => a.version ≠ b.version)) :
    (updateList vs n).filter (fun v => v.version = n.version) = [n]
    ∧ (updateList vs n).Pairwise (fun a b => a.version ≠ b.version) :=
  ⟨updateList_filter_new vs n, updateList_pairwise vs n hinv⟩

/-- Witness for C3: replacing version `0.0.1` in a one-record index. -/
theorem claim_C3_witness :
    ([(⟨"0.0.1", "c1", "u", "r"⟩ : VRec)].Pairwise (fun a b => a.version ≠ b.version))
    ∧ ((updateList [⟨"0.0.1", "c1", "u", "r"⟩] ⟨"0.0.1", "c2", "u", "r"⟩).filter
          (fun v => v.version = (⟨"0.0.1", "c2", "u", "r"⟩ : VRec).version)
        = [⟨"0.0.1", "c2", "u", "r"⟩]
      ∧ (updateList [⟨"0.0.1", "c1", "u", "r"⟩] ⟨"0.0.1", "c2", "u", "r"⟩).Pairwise
          (fun a b => a.version ≠ b.version)) :=
  ⟨by decide, claim_C3_unique_version [⟨"0.0.1", "c1", "u", "r"⟩] ⟨"0.0.1", "c2", "u", "r"⟩
    (by decide)⟩

/-- Claim C4: after every merge the record list rendered on the package
page is sorted by version in plain lexicographic (code-point) string
order; in particular `0.0.10` is rendered before `0.0.2`. -/
theorem claim_C4_lex_sorted :
    (∀ (vs : List VRec) (n : VRec), (updateList vs n).Sorted leVer)
    ∧ (updateList (updateList [] ⟨"0.0.2", "d", "u", "r"⟩)
        ⟨"0.0.10", "e", "u", "r"⟩).map VRec.version = ["0.0.10", "0.0.2"] := by
  constructor
  · exact updateList_sorted
  · decide

/-- Claim C5: merging a record whose version is already present (with a
different commit or forge identity) replaces that single record: the new
record is the unique one carrying that version, and every record with a
different version is in the result exactly when it was in the prior list. -/
theorem claim_C5_replacement (vs : List VRec) (n o : VRec) (ho : o ∈ vs)
    (hov : o.version = n.version) (hne : o ≠ n) :
    (∀ x, x.version ≠ n.version → (x ∈ updateList vs n ↔ x ∈ vs))
    ∧ n ∈ updateList vs n
    ∧ (updateList vs n).filter (fun v => v.version = n.version) = [n] :=
  ⟨fun x hx => updateList_mem_iff vs n x hx, updateList_mem_self vs n,
    updateList_filter_new vs n⟩

/-- Witness for C5: replacing the commit of the existing version `0.0.1`. -/
theorem claim_C5_witness :
    ((⟨"0.0.1", "c1", "u", "r"⟩ : VRec) ∈ [(⟨"0.0.1", "c1", "u", "r"⟩ : VRec)])
    ∧ (⟨"0.0.1", "c1", "u", "r"⟩ : VRec).version = (⟨"0.0.1", "c2", "u", "r"⟩ : VRec).version
    ∧ (⟨"0.0.1", "c1", "u", "r"⟩ : VRec) ≠ ⟨"0.0.1", "c2", "u", "r"⟩
    ∧ (⟨"0.0.1", "c2", "u", "r"⟩ : VRec)
        ∈ updateList [⟨"0.0.1", "c1", "u", "r"⟩] ⟨"0.0.1", "c2", "u", "r"⟩
    ∧ (updateList [⟨"0.0.1", "c1", "u", "r"⟩] ⟨"0.0.1", "c2", "u", "r"⟩).filter
        (fun v => v.version = (⟨"0.0.1", "c2", "u", "r"⟩ : VRec).version)
        = [⟨"0.0.1", "c2", "u", "r"⟩] :=
  ⟨by decide, by decide, by decide,
    (claim_C5_replacement [⟨"0.0.1", "c1", "u", "r"⟩] ⟨"0.0.1", "c2", "u", "r"⟩
      ⟨"0.0.1", "c1", "u", "r"⟩ (by decide) (by decide) (by decide)).2.1,
    (claim_C5_replacement [⟨"0.0.1", "c1", "u", "r"⟩] ⟨"0.0.1", "c2", "u", "r"⟩
      ⟨"0.0.1", "c1", "u", "r"⟩ (by decide) (by decide) (by decide)).2.2⟩

/-- Claim C6 (amended): for a package name and tuple satisfying the
round-trip well-formedness conditions of C1 (package name without `-`,
`"`, `<`; version, commit, user, repo well-formed), and a prior state
whose page for the package parses to a well-formed record list with
pairwise-distinct versions, invoking `update_index` twice in succession
with the identical tuple yields after the second call a package page
identical to the page after the first call — the record is replaced, not
duplicated.  As frozen, the claim held for *every* tuple, which fails for
hyphenated package names: the second call re-parses the page it just
wrote, mis-recovers the version, and appends a second record (see the
counterexample). -/
theorem claim_C6_page_idempotent (s : IndexState) (P v c u rp : String)
    (s1 s2 : IndexState)
    (hP : GoodName P) (hn : GoodRec ⟨v, c, u, rp⟩) (vs0 : List VRec)
    (hload : load_existing_versions (s.pages P) = some vs0)
    (hvs0 : ∀ r ∈ vs0, GoodRec r)
    (hinv : vs0.Pairwise (fun a b => a.version ≠ b.version))
    (h1 : update_index s P v c u rp = some s1)
    (h2 : update_index s1 P v c u rp = some s2) :
    s2.pages P = s1.pages P := by
  rw [update_index_eq s P v c u rp vs0 hload] at h1
  have hs1 := Option.some.inj h1
  subst hs1
  have hm1good : ∀ r ∈ updateList vs0 ⟨v, c, u, rp⟩, GoodRec r := by
    intro r hr
    unfold updateList at hr
    rw [(List.perm_insertionSort leVer _).mem_iff] at hr
    rcases List.mem_append.mp hr with hr | hr
    · exact hvs0 r (List.mem_filter.mp hr).1
    · simp only [List.mem_singleton] at hr
      subst hr
      exact hn
  have hload1 : load_existing_versions
      ((update_root_index
        { subdirs := if P ∈ s.subdirs then s.subdirs else s.subdirs ++ [P]
          pages := fun q =>
            if q = P then
              some (create_package_index_html P (updateList vs0 ⟨v, c, u, rp⟩))
            else s.pages q
          rootPage := s.rootPage }).pages P)
      = some (updateList vs0 ⟨v, c, u, rp⟩) := by
    show load_existing_versions
        (if P = P then
          some (create_package_index_html P (updateList vs0 ⟨v, c, u, rp⟩))
        else s.pages P) = some (updateList vs0 ⟨v, c, u, rp⟩)
    rw [if_pos rfl]
    exact parse_render P (updateList vs0 ⟨v, c, u, rp⟩) hP hm1good
  rw [update_index_eq _ P v c u rp _ hload1] at h2
  have hs2 := Option.some.inj h2
  subst hs2
  simp [update_root_index, updateList_idem_eq vs0 ⟨v, c, u, rp⟩ hinv]

set_option maxRecDepth 80000 in
/-- Claim C6 counterexample: for the hyphenated package `a-b` with
version `1`, the first call writes a page with the single record
`("1", c, u, r)`, but the second call with the identical tuple re-parses
that page as `("b-1", c, u, r)` (the `-` split defect), keeps it, and
writes a page with two records — the record set after the second call is
not the record set after the first. -/
theorem claim_C6_counterexample :
    (update_index exampleState "a-b" "1" "c" "u" "r").bind (fun t => t.pages "a-b")
      = some (create_package_index_html "a-b" [⟨"1", "c", "u", "r"⟩])
    ∧ (update_index exampleState "a-b" "1" "c" "u" "r").bind
        (fun t => (update_index t "a-b" "1" "c" "u" "r").bind (fun t2 => t2.pages "a-b"))
      = some (create_package_index_html "a-b"
          [⟨"1", "c", "u", "r"⟩, ⟨"b-1", "c", "u", "r"⟩])
    ∧ (⟨"b-1", "c", "u", "r"⟩ : VRec) ∉ [(⟨"1", "c", "u", "r"⟩ : VRec)] := by
  refine ⟨?_, ?_, ?_⟩
  · decide
  · decide
  · decide

set_option maxRecDepth 80000 in
/-- Witness for C6: registering `eprint 0.0.1` twice in the empty
repository leaves the package page unchanged after the second call. -/
theorem claim_C6_witness :
    GoodName "eprint"
    ∧ GoodRec ⟨"0.0.1", "abc", "jakeogh", "eprint"⟩
    ∧ load_existing_versions (exampleState.pages "eprint") = some []
    ∧ update_index exampleState "eprint" "0.0.1" "abc" "jakeogh" "eprint" = some exampleUpdated
    ∧ update_index exampleUpdated "eprint" "0.0.1" "abc" "jakeogh" "eprint" = some exampleTwice
    ∧ exampleTwice.pages "eprint" = exampleUpdated.pages "eprint" :=
  ⟨by decide, by decide, rfl, rfl, rfl,
    claim_C6_page_idempotent exampleState "eprint" "0.0.1" "abc" "jakeogh" "eprint"
      exampleUpdated exampleTwice (by decide) (by decide) [] rfl (by decide) (by decide)
      rfl rfl⟩

/-- Claim C7: after every successful `update_index` call, the root page is
exactly the rendering of the package subdirectories now present under
`simple/` minus `.git`: it is recomputed from the current directory set
(never stale), the updated package is among them, the rendered name list
contains a package iff its directory is present and is not `.git`, it is
sorted ascending, and the page body is one anchor (`href="{package}/"`,
text the package name) per package. -/
theorem claim_C7_root_complete (s : IndexState) (pn v c u rp : String) (s' : IndexState)
    (h : update_index s pn v c u rp = some s') :
    s'.rootPage = some (create_root_index_html (s'.subdirs.filter (fun q => q ≠ ".git")))
    ∧ pn ∈ s'.subdirs
    ∧ (∀ q, q ∈ sortedPackages (s'.subdirs.filter (fun q => q ≠ ".git"))
        ↔ (q ∈ s'.subdirs ∧ q ≠ ".git"))
    ∧ (sortedPackages (s'.subdirs.filter (fun q => q ≠ ".git"))).Sorted strLe
    ∧ (create_root_index_html (s'.subdirs.filter (fun q => q ≠ ".git"))).data
        = rootHeader.data ++
            (((sortedPackages (s'.subdirs.filter (fun q => q ≠ ".git"))).map
              (fun p => (rootAnchorOf p).data)).flatten ++ rootFooter.data) := by
  cases hload : load_existing_versions (s.pages pn) with
  | none =>
    unfold update_index at h
    rw [hload] at h
    exact absurd h (by simp)
  | some vs =>
    rw [update_index_eq s pn v c u rp vs hload] at h
    have hs' := Option.some.inj h
    subst hs'
    refine ⟨rfl, ?_, ?_, List.sorted_insertionSort strLe _, create_root_data _⟩
    · show pn ∈ (if pn ∈ s.subdirs then s.subdirs else s.subdirs ++ [pn])
      by_cases hin : pn ∈ s.subdirs
      · rw [if_pos hin]; exact hin
      · rw [if_neg hin]; exact List.mem_append.mpr (Or.inr (by simp))
    · intro q
      rw [sortedPackages, (List.perm_insertionSort strLe _).mem_iff, List.mem_filter]
      simp

/-- Witness for C7: updating the empty index repository with `eprint`. -/
theorem claim_C7_witness :
    update_index exampleState "eprint" "0.0.1" "abc" "jakeogh" "eprint" = some exampleUpdated
    ∧ exampleUpdated.rootPage
        = some (create_root_index_html (exampleUpdated.subdirs.filter (fun q => q ≠ ".git")))
    ∧ "eprint" ∈ exampleUpdated.subdirs :=
  ⟨rfl,
    (claim_C7_root_complete exampleState "eprint" "0.0.1" "abc" "jakeogh" "eprint"
      exampleUpdated rfl).1,
    (claim_C7_root_complete exampleState "eprint" "0.0.1" "abc" "jakeogh" "eprint"
      exampleUpdated rfl).2.1⟩

/-- Claim C8: when the package has no `index.html`, `load_existing_versions`
returns the empty record list without failing, and `update_index` succeeds
and writes the package page rendered from the single new record. -/
theorem claim_C8_missing_page (s : IndexState) (pn v c u rp : String)
    (h : s.pages pn = none) :
    load_existing_versions (s.pages pn) = some []
    ∧ (update_index s pn v c u rp).bind (fun t => t.pages pn)
        = some (create_package_index_html pn [⟨v, c, u, rp⟩]) := by
  have h0 : load_existing_versions (s.pages pn) = some [] := by
    rw [h]
    rfl
  refine ⟨h0, ?_⟩
  rw [update_index_eq s pn v c u rp [] h0]
  show (if pn = pn then some (create_package_index_html pn (updateList [] ⟨v, c, u, rp⟩))
      else s.pages pn) = some (create_package_index_html pn [⟨v, c, u, rp⟩])
  rw [if_pos rfl]
  rfl

/-- Witness for C8: updating the empty index repository, whose `eprint`
package has no page. -/
theorem claim_C8_witness :
    exampleState.pages "eprint" = none
    ∧ (load_existing_versions (exampleState.pages "eprint") = some []
      ∧ (update_index exampleState "eprint" "0.0.1" "abc" "jakeogh" "eprint").bind
          (fun t => t.pages "eprint")
          = some (create_package_index_html "eprint" [⟨"0.0.1", "abc", "jakeogh", "eprint"⟩])) :=
  ⟨rfl, claim_C8_missing_page exampleState "eprint" "0.0.1" "abc" "jakeogh" "eprint" rfl⟩

/-- Claim C9 (amended): of the regenerator's external-process invocations,
only the remote-URL lookup is time-bounded (5 seconds); the commit lookup
passes no `timeout=` in either of its two identical definitions, and the
per-repository Index Writer invocation that actually runs (the second
definition of `regenerate_index`, which shadows the first) passes
`check=True` but no `timeout=` — only the dead first definition passed
`timeout=10`.  As frozen, the claim asserted every invocation is bounded
by a short timeout (see the counterexample). -/
theorem claim_C9_timeouts :
    get_github_info_call.timeoutSeconds = some 5
    ∧ get_git_commit_call.timeoutSeconds = none
    ∧ (∀ py script pkg ver commit idx user repo,
        (update_call py script pkg ver commit idx user repo).timeoutSeconds = none
        ∧ (update_call_shadowed py script pkg ver commit idx user repo).timeoutSeconds
            = some 10) :=
  ⟨rfl, rfl, fun _ _ _ _ _ _ _ _ => ⟨rfl, rfl⟩⟩

/-- Claim C9 counterexample: the commit lookup and the effective Index
Writer subprocess invocation carry no timeout at all, so not every
external-process invocation is bounded by a short timeout. -/
theorem claim_C9_counterexample :
    get_git_commit_call.timeoutSeconds = none
    ∧ (update_call "python3" "update_pip_index.py" "eprint" "0.0.1" "abc123"
        "pip-index" "jakeogh" "eprint").timeoutSeconds = none :=
  ⟨rfl, rfl⟩

/-- Claim C10: a successful `update_index` call for package `pn` leaves the
page of every other package byte-for-byte unchanged; the only pages it
writes are `simple/pn/index.html` and the root `simple/index.html`. -/
theorem claim_C10_frame (s : IndexState) (pn v c u rp : String) (s' : IndexState)
    (h : update_index s pn v c u rp = some s') :
    ∀ q, q ≠ pn → s'.pages q = s.pages q := by
  intro q hq
  cases hload : load_existing_versions (s.pages pn) with
  | none =>
    unfold update_index at h
    rw [hload] at h
    exact absurd h (by simp)
  | some vs =>
    rw [update_index_eq s pn v c u rp vs hload] at h
    have hs' := Option.some.inj h
    subst hs'
    show (if q = pn then some (create_package_index_html pn (updateList vs ⟨v, c, u, rp⟩))
        else s.pages q) = s.pages q
    rw [if_neg hq]

/-- Witness for C10: after registering `eprint`, the page of the unrelated
package `zlib` is unchanged. -/
theorem claim_C10_witness :
    update_index exampleState "eprint" "0.0.1" "abc" "jakeogh" "eprint" = some exampleUpdated
    ∧ ("zlib" : String) ≠ "eprint"
    ∧ exampleUpdated.pages "zlib" = exampleState.pages "zlib" :=
  ⟨rfl, by decide,
    claim_C10_frame exampleState "eprint" "0.0.1" "abc" "jakeogh" "eprint"
      exampleUpdated rfl "zlib" (by decide)⟩

end PipIndex
